import Mathlib

/-!
QtPass : the keybase backend (src/keybase.cpp)

A shallow embedding of `Keybase` : the completion handler `Keybase::finished`,
the store operations `Insert`, `Init`, `Move`, the recursive `removeDir` and the
re-encryption scan `reencryptPath`, followed by the properties proved of them.

Conventions.  `QString` is embedded as `String` (a `QStringList` as
`List String`); lengths and comparisons go by character, which is Qt's
code-unit semantics on text of the Basic Multilingual Plane; `tr` is the
identity.  Signals, subprocess invocations and file
writes are recorded, in program order, in a list of `Effect`.  Everything the
program reads from its surroundings (settings, the file system, the output of
blocking subprocesses, the recipient resolver of the base class) is a field of
`Env`.
-/

namespace Keybase

/-! ## Process identifiers -/

/-- The enumerators of `Enums::PROCESS` that keybase.cpp names. -/
inductive PROCESS where
  | GIT_INIT | GIT_ADD | GIT_COMMIT | GIT_RM | GIT_PULL | GIT_PUSH
  | PASS_SHOW | PASS_INSERT | PASS_REMOVE | PASS_INIT | PASS_MOVE | PASS_COPY
  | GIT_MOVE | GIT_COPY | INVALID
  deriving DecidableEq, Repr

open PROCESS

/-! ## Transaction tracker (base class `simpleTransaction`) -/

/-- Modelled from the spec: the `Transaction` record of the tracker, whose
implementation (simpletransaction.cpp) is not part of the sources.  A logical
operation kind paired with the invocation ids still pending on its behalf;
`scopeOpen` tells whether the scoped `transactionHelper` that began it is still
alive, so that new invocations attach to it. -/
structure Transaction where
  kind : PROCESS
  pending : List PROCESS
  scopeOpen : Bool
  deriving DecidableEq, Repr

/-- The tracker state: the transactions in the order they were begun. -/
abbrev Tracker := List Transaction

/-- Modelled from the spec: `beginTransaction(kind)`, run by the constructor of
`transactionHelper` : registers a new logical operation with nothing pending. -/
def transactionStart (kind : PROCESS) (t : Tracker) : Tracker :=
  t ++ [⟨kind, [], true⟩]

/-- Modelled from the spec: the search behind `trackInvocation` (simpletransaction.cpp
is missing) : attach `id` to the most recently begun transaction whose scope is
open, if there is one. -/
def addToLastOpen (id : PROCESS) : Tracker → Option Tracker
  | [] => none
  | tx :: rest =>
    match addToLastOpen id rest with
    | some rest1 => some (tx :: rest1)
    | none =>
      if tx.scopeOpen then some (⟨tx.kind, tx.pending ++ [id], true⟩ :: rest)
      else none

/-- Modelled from the spec: `trackInvocation(invocationId)`, the missing
`transactionAdd` : associates a newly launched invocation with the most recently
begun, still-open transaction.  An invocation launched outside any scope (as
`Show` does) is a transaction of its own, of its own kind. -/
def transactionAdd (id : PROCESS) (t : Tracker) : Tracker :=
  match addToLastOpen id t with
  | some t1 => t1
  | none => t ++ [⟨id, [id], false⟩]

/-- Modelled from the spec: the search behind the implicit end of a scoped
transaction (simpletransaction.cpp is missing) : close the most recently begun
open scope; a transaction that never launched anything has nothing to wait for
and is dropped. -/
def closeLastOpen : Tracker → Option Tracker
  | [] => none
  | tx :: rest =>
    match closeLastOpen rest with
    | some rest1 => some (tx :: rest1)
    | none =>
      if tx.scopeOpen then
        (if tx.pending.isEmpty then some rest else some (⟨tx.kind, tx.pending, false⟩ :: rest))
      else none

/-- Modelled from the spec: the implicit end of the scoped transaction, run by
the destructor of `transactionHelper`. -/
def transactionEnd (t : Tracker) : Tracker :=
  (closeLastOpen t).getD t

/-- Modelled from the spec: the tracker half of `onInvocationFinished`, the
missing `transactionIsOver` : removes the invocation from its transaction's
pending set; when that set is now empty the transaction is over, it is
destroyed and its kind is returned; otherwise, and when no transaction holds the
invocation, `INVALID` is returned. -/
def transactionIsOver (id : PROCESS) : Tracker → PROCESS × Tracker
  | [] => (INVALID, [])
  | tx :: rest =>
    if id ∈ tx.pending then
      (if (tx.pending.erase id).isEmpty then (tx.kind, rest)
       else (INVALID, ⟨tx.kind, tx.pending.erase id, tx.scopeOpen⟩ :: rest))
    else
      ((transactionIsOver id rest).1, tx :: (transactionIsOver id rest).2)

/-- The tracker after `transactionHelper trans(this, kind)`, one
`executeWrapper(id, ...)` (hence one `transactionAdd(id)`) per element of `ids`,
and the end of the scope. -/
def registered (kind : PROCESS) (ids : List PROCESS) : Tracker :=
  transactionEnd (ids.foldl (fun t id => transactionAdd id t) (transactionStart kind []))

/-! ## `Keybase::finished` -/

/-- One call of the slot `Keybase::finished(id, exitCode, out, err)`.
`cancelNext` lists the ids that successive calls of `exec.cancelNext()` hand out
during this call; once the list is exhausted `cancelNext()` answers `-1`. -/
structure Completion where
  id : PROCESS
  exitCode : Int
  out : String
  err : String
  cancelNext : List PROCESS
  deriving DecidableEq, Repr

/-- The consolidated event: the arguments of the call
`Pass::finished(pid, exitCode, transactionOutput, err)`. -/
structure Finished where
  pid : PROCESS
  exitCode : Int
  output : String
  err : String
  deriving DecidableEq, Repr

/-- What `Keybase::finished` keeps between calls: the tracker of the base class
(of any type `τ`) and the function-local `static QString transactionOutput`. -/
structure State (τ : Type) where
  tracker : τ
  transactionOutput : String

/-- The loop `while (pid == INVALID)` of the failure branch.  `none` is the
`return` taken when `cancelNext()` answers `-1`. -/
def cancelLoop {τ : Type} (isOver : PROCESS → τ → PROCESS × τ) (t : τ) :
    List PROCESS → Option PROCESS × τ
  | [] => (none, t)
  | id :: q =>
    if (isOver id t).1 = INVALID then cancelLoop isOver (isOver id t).2 q
    else (some (isOver id t).1, (isOver id t).2)

/-- Embeds `Keybase::finished`, over any implementation `isOver` of
`transactionIsOver`.  Returns the new state and the consolidated event, if the
call reaches `Pass::finished`. -/
def finished {τ : Type} (isOver : PROCESS → τ → PROCESS × τ) (s : State τ)
    (c : Completion) : State τ × Option Finished :=
  let pid := (isOver c.id s.tracker).1
  let t1 := (isOver c.id s.tracker).2
  let transactionOutput := s.transactionOutput ++ c.out
  if c.exitCode = 0 then
    if pid = INVALID then (⟨t1, transactionOutput⟩, none)
    else (⟨t1, ""⟩, some ⟨pid, c.exitCode, transactionOutput, c.err⟩)
  else
    if pid = INVALID then
      match cancelLoop isOver t1 c.cancelNext with
      | (none, t2) => (⟨t2, transactionOutput⟩, none)
      | (some p, t2) => (⟨t2, ""⟩, some ⟨p, c.exitCode, transactionOutput, c.err⟩)
    else (⟨t1, ""⟩, some ⟨pid, c.exitCode, transactionOutput, c.err⟩)

/-- A sequence of completions delivered to `Keybase::finished`, one after the
other: the final state and, per completion, the event it emitted (if any). -/
def run {τ : Type} (isOver : PROCESS → τ → PROCESS × τ) (s : State τ) :
    List Completion → State τ × List (Option Finished)
  | [] => (s, [])
  | c :: cs =>
    ((run isOver (finished isOver s c).1 cs).1,
      (finished isOver s c).2 :: (run isOver (finished isOver s c).1 cs).2)


/-- Concatenation of a list of strings, in list order. -/
def concatAll : List String → String
  | [] => ""
  | s :: l => s ++ concatAll l

/-! ## Qt string primitives used by keybase.cpp -/

/-- The order `QString::operator<` induces on the embedded strings:
lexicographic on the characters (case-sensitive). -/
def qLe (a b : String) : Prop := a.toList ≤ b.toList

instance : DecidableRel qLe := fun a b => inferInstanceAs (Decidable (a.toList ≤ b.toList))

/-- Embeds `QStringList::sort()` : ascending, case-sensitive. -/
def sort (l : List String) : List String := l.insertionSort qLe

/-- Embeds `QString::split(sep)` for a one-character separator, empty parts kept, on
the characters of the string. -/
def splitChars (sep : Char) : List Char → List (List Char)
  | [] => [[]]
  | c :: cs =>
    if c = sep then [] :: splitChars sep cs
    else
      match splitChars sep cs with
      | [] => [[c]]
      | w :: ws => (c :: w) :: ws

/-- Embeds `QString::split(sep)` for a one-character separator (`KeepEmptyParts`). -/
def split (sep : Char) (s : String) : List String :=
  (splitChars sep s.toList).map String.mk

/-- Embeds `path.replace(QRegExp("\\.gpg$"), "")` : drop one trailing `.gpg`. -/
def removeGpgSuffix (path : String) : String :=
  if ".gpg".toList.isSuffixOf path.toList then String.mk (path.toList.take (path.length - 4))
  else path

/-! ## The recipient parser of `reencryptPath` -/

/-- The body of the inner `while (itr.hasNext())` loop for one line `current` :
the key id this line contributes to `actualKeys`, if any. -/
def keyOfLine (current : String) : Option String :=
  let cur := split ' ' current
  if cur.length > 4 then
    (let actualKey := cur.getD 4 ""
     if actualKey.length = 16 then some actualKey else none)
  else none

/-- The list `actualKeys` of `reencryptPath` right after `actualKeys.sort()`,
from `keys` (the stdout of the list-only call followed by its stderr). -/
def actualKeysOf (keys : String) : List String :=
  sort ((split '\n' keys).filterMap keyOfLine)

/-- The fields of a line in the usual sense of "whitespace-separated" : the
maximal runs of non-whitespace characters.  `cur` is the field being read. -/
def whitespaceFields (cur : List Char) : List Char → List (List Char)
  | [] => if cur.isEmpty then [] else [cur]
  | c :: cs =>
    if c.isWhitespace then
      (if cur.isEmpty then whitespaceFields [] cs else cur :: whitespaceFields [] cs)
    else whitespaceFields (cur ++ [c]) cs

/-- The recipient list as C10 words it: the sorted list of the 5th
whitespace-separated field of each line that has at least five such fields and
whose 5th field is exactly 16 characters long. -/
def actualKeysAsWorded (keys : String) : List String :=
  sort ((split '\n' keys).filterMap (fun line =>
    let fields := (whitespaceFields [] line.toList).map String.mk
    if fields.length ≥ 5 ∧ (fields.getD 4 "").length = 16 then some (fields.getD 4 "") else none))

/-- The `n`-th (from 0) field of a line whose fields are delimited by single
space characters, empty fields counted; `none` when the line has fewer fields. -/
def spaceField : Nat → List Char → Option (List Char)
  | 0, l => some (l.takeWhile (fun c => c ≠ ' '))
  | n + 1, l =>
    match l.dropWhile (fun c => c ≠ ' ') with
    | [] => none
    | _ :: rest => spaceField n rest

/-! ## `Keybase::removeDir` -/

mutual
/-- What `removeDir(dirName)` finds at `dirName` : whether `dir.exists(dirName)`
holds, the entries `dir.entryInfoList(...)` returns (in the order it returns
them), and whether `dir.rmdir(dirName)` will succeed. -/
inductive Dir where
  | mk (present : Bool) (entries : List Info) (rmdirOk : Bool)
/-- One `QFileInfo info` of the listing: a directory (`info.isDir()`) with what
lies below it, or anything else, with the result `QFile::remove` will give. -/
inductive Info where
  | dir (name : String) (d : Dir)
  | file (name : String) (removeOk : Bool)
end

/-- One deletion attempted on the file system (`QFile::remove` or
`QDir::rmdir`) : the path and whether it succeeded. -/
structure Attempt where
  path : String
  ok : Bool
  deriving DecidableEq, Repr

/-- Value of `info.absoluteFilePath()` of the entry `name` of the directory `dirName`. -/
def absoluteFilePath (dirName name : String) : String := dirName ++ "/" ++ name

mutual
/-- Embeds `Keybase::removeDir(dirName)` : the value returned and the deletions
attempted, in order. -/
def removeDir (dirName : String) : Dir → Bool × List Attempt
  | .mk present entries rmdirOk =>
    if present then
      match removeEntries dirName entries with
      | (false, done) => (false, done)
      | (true, done) => (rmdirOk, done ++ [⟨dirName, rmdirOk⟩])
    else (true, [])
/-- The `Q_FOREACH` loop of `removeDir` over the listing of `dirName` ; the
first component is `false` when the loop left through `return result`. -/
def removeEntries (dirName : String) : List Info → Bool × List Attempt
  | [] => (true, [])
  | .dir name d :: rest =>
    match removeDir (absoluteFilePath dirName name) d with
    | (false, done) => (false, done)
    | (true, done) =>
      ((removeEntries dirName rest).1, done ++ (removeEntries dirName rest).2)
  | .file name removeOk :: rest =>
    if removeOk then
      ((removeEntries dirName rest).1,
        ⟨absoluteFilePath dirName name, true⟩ :: (removeEntries dirName rest).2)
    else (false, [⟨absoluteFilePath dirName name, false⟩])
end

/-- The shape of every result of `removeDir` : either `true` with only
successful attempts, or `false` with a trace that ends in its single failed
attempt. -/
def StopsAtFailure (r : Bool × List Attempt) : Prop :=
  (r.1 = true ∧ ∀ a ∈ r.2, a.ok = true) ∨
    (r.1 = false ∧ ∃ pre last, r.2 = pre ++ [last] ∧ last.ok = false ∧ ∀ a ∈ pre, a.ok = true)

/-! ## `QString::arg` -/

/-- Embeds `QChar::digitValue()` on the ASCII digits. -/
def digitValue (c : Char) : Option Nat :=
  if c.isDigit then some (c.toNat - 48) else none

/-- A piece of a string as `QString::arg` reads it: a plain character, or a
place marker `%n` / `%Ln` (one or two digits) with the text that spells it. -/
inductive ArgPiece where
  | chr (c : Char)
  | marker (n : Nat) (raw : List Char)
  deriving DecidableEq, Repr

/-- Where the scanner of `QString::arg` stands: in plain text, after `%`,
after `%L`, or after the first digit `v` of a marker spelled `raw` so far. -/
inductive ArgScan where
  | text
  | percent
  | percentL
  | digit (v : Nat) (raw : List Char)

/-- The scanner shared by `findArgEscapes` and `replaceArgEscapes` of QString: a
`%`, an optional `L`, then one or two digits make a place marker; a `%` (or
`%L`) not followed by a digit is plain text and scanning resumes at the
character that was not a digit. -/
def argPieces : ArgScan → List Char → List ArgPiece
  | .text, [] => []
  | .percent, [] => [.chr '%']
  | .percentL, [] => [.chr '%', .chr 'L']
  | .digit v raw, [] => [.marker v raw]
  | .text, c :: cs =>
    if c = '%' then argPieces .percent cs else .chr c :: argPieces .text cs
  | .percent, c :: cs =>
    if c = 'L' then argPieces .percentL cs
    else
      match digitValue c with
      | some v => argPieces (.digit v ['%', c]) cs
      | none =>
        .chr '%' :: (if c = '%' then argPieces .percent cs else .chr c :: argPieces .text cs)
  | .percentL, c :: cs =>
    match digitValue c with
    | some v => argPieces (.digit v ['%', 'L', c]) cs
    | none =>
      .chr '%' :: .chr 'L' ::
        (if c = '%' then argPieces .percent cs else .chr c :: argPieces .text cs)
  | .digit v raw, c :: cs =>
    match digitValue c with
    | some v2 => .marker (10 * v + v2) (raw ++ [c]) :: argPieces .text cs
    | none =>
      .marker v raw ::
        (if c = '%' then argPieces .percent cs else .chr c :: argPieces .text cs)

/-- The numbers of the place markers among the pieces. -/
def markerNumbers : List ArgPiece → List Nat
  | [] => []
  | .chr _ :: ps => markerNumbers ps
  | .marker n _ :: ps => n :: markerNumbers ps

/-- The pieces spelled out again, every marker numbered `m` replaced by `a`. -/
def substitute (m : Nat) (a : List Char) : List ArgPiece → List Char
  | [] => []
  | .chr c :: ps => c :: substitute m a ps
  | .marker n raw :: ps => (if n = m then a else raw) ++ substitute m a ps

/-- Embeds `QString::arg(const QString &a)` : replaces every occurrence of the
lowest-numbered place marker by `a` ; a string without a marker is returned
unchanged. -/
def arg (s a : String) : String :=
  match (markerNumbers (argPieces .text s.toList)).min? with
  | none => s
  | some m => String.mk (substitute m a.toList (argPieces .text s.toList))

/-! ## Surroundings and effects of the store operations -/

/-- The answers of one `QFileInfo` object. -/
structure QFileInfo where
  fileExists : Bool
  isFile : Bool
  isDir : Bool
  absoluteFilePath : String
  fileName : String
  dirPath : String
  deriving DecidableEq, Repr

/-- One step of the `QDirIterator gpgFiles` : the path `gpgFiles.next()`
returns and `gpgFiles.fileInfo().path()`, the directory part of that path. -/
structure GpgFile where
  fileName : String
  path : String
  deriving DecidableEq, Repr

/-- Everything the store operations read from their surroundings. -/
structure Env where
  /-- Embeds `QtPassSettings::getPassStore()` -/
  passStore : String
  /-- Embeds `QtPassSettings::isUseGit()` -/
  useGit : Bool
  /-- Embeds `QtPassSettings::isUseWebDav()` -/
  useWebDav : Bool
  /-- Embeds `QtPassSettings::isAutoPull()` -/
  autoPull : Bool
  /-- Embeds `QtPassSettings::isAutoPush()` -/
  autoPush : Bool
  /-- Embeds `QtPassSettings::isAddGPGId(true)` -/
  addGPGId : Bool
  /-- Embeds `QtPassSettings::getGitExecutable()` -/
  gitExecutable : String
  /-- Embeds `QtPassSettings::getGpgExecutable()` -/
  gpgExecutable : String
  /-- Embeds `QtPassSettings::getKeybaseExecutable()` -/
  keybaseExecutable : String
  /-- Embeds `Pass::getRecipientList(file)` of the base class -/
  getRecipientList : String → List String
  /-- Embeds `QFileInfo(path)` -/
  fileInfo : String → QFileInfo
  /-- whether `QFile(path).open(WriteOnly | Text)` succeeds -/
  canOpen : String → Bool
  /-- Embeds `QDir(dir).relativeFilePath(file)` -/
  relativeFilePath : String → String → String
  /-- Embeds `QDir::separator()` -/
  separator : String
  /-- the files `QDirIterator(dir, "*.gpg", Files, Subdirectories)` yields -/
  gpgFiles : String → List GpgFile
  /-- Embeds `exec.executeBlocking(app, args, input, out, err)` : the standard output
  and standard error stored through the two pointers, or `none` when the call
  leaves them untouched -/
  executeBlocking : String → List String → String → Option (String × String)

/-- The fields of `UserInfo` that `Init` reads. -/
structure UserInfo where
  key_id : String
  have_secret : Bool
  enabled : Bool
  deriving DecidableEq, Repr

/-- What an operation does to its surroundings, in program order. -/
inductive Effect where
  /-- construction of `transactionHelper trans(this, kind)` -/
  | transactionBegin (kind : PROCESS)
  /-- destruction of that `transactionHelper` when its scope is left -/
  | transactionEnd (kind : PROCESS)
  /-- Embeds `executeWrapper(id, app, args, input)` : `transactionAdd(id)` followed by
  the asynchronous invocation of `app` -/
  | executeWrapper (id : PROCESS) (app : String) (args : List String) (input : String)
  /-- Embeds `exec.executeBlocking(app, args, input, ...)` -/
  | executeBlocking (app : String) (args : List String) (input : String)
  /-- Embeds `emit critical(title, text)` -/
  | critical (title text : String)
  /-- Embeds `emit statusMsg(msg, timeout)` -/
  | statusMsg (msg : String) (timeout : Nat)
  | startReencryptPath
  | endReencryptPath
  /-- Success of `QFile::open(WriteOnly | Text)` on the path -/
  | fileOpen (path : String)
  | fileWrite (path data : String)
  | fileClose (path : String)
  /-- Embeds `QDir::remove(path)` -/
  | remove (path : String)
  /-- Embeds `QDir::rename(src, dest)` -/
  | rename (src dest : String)
  deriving DecidableEq, Repr

/-- Whether the effect is a subprocess invocation (asynchronous or blocking). -/
def Effect.isInvocation : Effect → Bool
  | .executeWrapper _ _ _ _ => true
  | .executeBlocking _ _ _ => true
  | _ => false

/-- Embeds `executeKeybase(id, args, input)` -/
def executeKeybase (env : Env) (id : PROCESS) (args : List String) (input : String) :
    List Effect :=
  [.executeWrapper id env.keybaseExecutable args input]

/-- Embeds `executeGit(id, args)` -/
def executeGit (env : Env) (id : PROCESS) (args : List String) : List Effect :=
  [.executeWrapper id env.gitExecutable args ""]

/-- Embeds `Keybase::GitCommit(file, msg)` -/
def GitCommit (env : Env) (file msg : String) : List Effect :=
  executeGit env PROCESS.GIT_COMMIT ["commit", "-m", msg, "--", file]

/-- Embeds `Keybase::GitPush()` -/
def GitPush (env : Env) : List Effect :=
  if env.useGit then executeGit env PROCESS.GIT_PUSH ["push"] else []

/-- The `-r <recipient>` pairs appended to the argument list, one per recipient. -/
def recipientArgs : List String → List String
  | [] => []
  | r :: rs => "-r" :: r :: recipientArgs rs

/-! ## `Keybase::Insert` -/

/-- Embeds `Keybase::Insert(file, newValue, overwrite)` -/
def Insert (env : Env) (file newValue : String) (overwrite : Bool) : List Effect :=
  let file := file ++ ".gpg"
  let recipients := env.getRecipientList file
  [.transactionBegin PROCESS.PASS_INSERT] ++
  (if recipients.isEmpty then
    [.critical "Can not edit"
      "Could not read encryption key to use, .gpg-id file missing or invalid."]
  else
    executeKeybase env PROCESS.PASS_INSERT
      (["pgp", "encrypt", "-i", file] ++ recipientArgs recipients ++
        (if overwrite then ["--yes"] else []) ++ ["-"]) newValue ++
    (if !env.useWebDav && env.useGit then
      (if !overwrite then executeGit env PROCESS.GIT_ADD ["add", file] else []) ++
      GitCommit env file
        ((if overwrite then "Edit" else "Add") ++ " for " ++
          removeGpgSuffix (env.relativeFilePath env.passStore file) ++ " using QtPass.")
    else [])) ++
  [.transactionEnd PROCESS.PASS_INSERT]

/-! ## `Keybase::reencryptPath` -/

/-- Value of `QDir().path()` of the default-constructed `QDir currentDir`, which
`reencryptPath` never changes. -/
def currentDirPath : String := "."

/-- The value of a `QString` passed as output pointer to `executeBlocking`
after the call: the output stored, or the initial value when none was stored. -/
def outputOr (initial : String) : Option (String × String) → String
  | some (out, _) => out
  | none => initial

/-- The arguments of the list-only call. -/
def listArgs (fileName : String) : List String :=
  ["-v", "--no-secmem-warning", "--no-permission-warning", "--list-only",
    "--keyid-format=long", fileName]

/-- The arguments of the decrypt call. -/
def decryptArgs (fileName : String) : List String :=
  ["-d", "--quiet", "--yes", "--no-encrypt-to", "--batch", "--use-agent", fileName]

/-- The arguments of the encrypt call. -/
def encryptArgs (fileName : String) (recipients : List String) : List String :=
  ["--yes", "--batch", "-eq", "--output", fileName] ++ recipientArgs recipients ++ ["-"]

/-- Value of `keys` after `keys += err` : stdout of the list-only call followed by its
stderr (both empty when the call stored nothing). -/
def listOutput (env : Env) (fileName : String) : String :=
  match env.executeBlocking env.gpgExecutable (listArgs fileName) "" with
  | some (keys, err) => keys ++ err
  | none => ""

/-- Value of `local_lastDecrypt` right after the decrypt call. -/
def decryptOutput (env : Env) (fileName : String) : String :=
  outputOr "Could not decrypt" (env.executeBlocking env.gpgExecutable (decryptArgs fileName) "")

/-- The plaintext handed to the encrypt call: `local_lastDecrypt` with a line
feed appended unless it already ends in one. -/
def withNewline (s : String) : String :=
  if s.toList.getLast? ≠ some '\n' then s ++ "\n" else s

/-- The stage-and-commit step of one re-encrypted file. -/
def commitReencrypted (env : Env) (fileName : String) : List Effect :=
  if !env.useWebDav && env.useGit then
    [.executeBlocking env.gitExecutable ["add", fileName] "",
     .executeBlocking env.gitExecutable
       ["commit", fileName, "-m",
         "Edit for " ++ removeGpgSuffix (env.relativeFilePath env.passStore fileName) ++
           " using QtPass."] ""]
  else []

/-- The loop `while (gpgFiles.hasNext())` of `reencryptPath`, from the files
still to come and the current value of the local `gpgId`.  The second component
is `true` when the loop was left by the `return` of the empty-recipients guard. -/
def reencryptLoop (env : Env) : List GpgFile → List String → List Effect × Bool
  | [], _ => ([], false)
  | f :: rest, gpgId =>
    let gpgId := if f.path ≠ currentDirPath then sort (env.getRecipientList f.fileName) else gpgId
    let actualKeys := actualKeysOf (listOutput env f.fileName)
    let list : List Effect := [.executeBlocking env.gpgExecutable (listArgs f.fileName) ""]
    if actualKeys ≠ gpgId then
      let local_lastDecrypt := decryptOutput env f.fileName
      let decrypt : List Effect :=
        [.executeBlocking env.gpgExecutable (decryptArgs f.fileName) ""]
      if local_lastDecrypt ≠ "" ∧ local_lastDecrypt ≠ "Could not decrypt" then
        let recipients := env.getRecipientList f.fileName
        if recipients.isEmpty then
          (list ++ decrypt ++
            [.critical "Can not edit"
              "Could not read encryption key to use, .gpg-id file missing or invalid."], true)
        else
          (list ++ decrypt ++
            [.executeBlocking env.gpgExecutable (encryptArgs f.fileName recipients)
              (withNewline local_lastDecrypt)] ++
            commitReencrypted env f.fileName ++ (reencryptLoop env rest gpgId).1,
            (reencryptLoop env rest gpgId).2)
      else (list ++ decrypt ++ (reencryptLoop env rest gpgId).1, (reencryptLoop env rest gpgId).2)
    else (list ++ (reencryptLoop env rest gpgId).1, (reencryptLoop env rest gpgId).2)

/-- Embeds `Keybase::reencryptPath(dir)` -/
def reencryptPath (env : Env) (dir : String) : List Effect :=
  [.statusMsg (arg "Re-encrypting from folder %1" dir) 3000, .startReencryptPath] ++
  (if env.autoPull then
    [.statusMsg "Updating password-store" 2000,
     .executeBlocking env.gitExecutable ["pull"] ""]
  else []) ++
  (reencryptLoop env (env.gpgFiles dir) []).1 ++
  (if (reencryptLoop env (env.gpgFiles dir) []).2 then []
   else
    (if env.autoPush then .statusMsg "Updating password-store" 2000 :: GitPush env else []) ++
    [.endReencryptPath])

/-! ## `Keybase::Init` -/

/-- The `foreach` loop of `Init` : one line per enabled user. -/
def writeUsers (gpgIdFile : String) : List UserInfo → List Effect
  | [] => []
  | user :: users =>
    if user.enabled then .fileWrite gpgIdFile (user.key_id ++ "\n") :: writeUsers gpgIdFile users
    else writeUsers gpgIdFile users

/-- The value of `secret_selected` after the `foreach` loop of `Init`. -/
def secretSelected : List UserInfo → Bool
  | [] => false
  | user :: users => if user.enabled then user.have_secret || secretSelected users
    else secretSelected users

/-- Embeds `Keybase::Init(path, users)` -/
def Init (env : Env) (path : String) (users : List UserInfo) : List Effect :=
  let gpgIdFile := path ++ ".gpg-id"
  let addFile := env.addGPGId &&
    (!(env.fileInfo gpgIdFile).fileExists || !(env.fileInfo gpgIdFile).isFile)
  [.transactionBegin PROCESS.PASS_INIT] ++
  (if !env.canOpen gpgIdFile then
    [.critical "Cannot update" "Failed to open .gpg-id for writing."]
  else
    [.fileOpen gpgIdFile] ++ writeUsers gpgIdFile users ++ [.fileClose gpgIdFile] ++
    (if !secretSelected users then
      [.critical "Check selected users!"
        ("None of the selected keys have a secret key available.\n" ++
          "You will not be able to decrypt any newly added passwords!")]
    else
      (if !env.useWebDav && env.useGit && !env.gitExecutable.isEmpty then
        (if addFile then executeGit env PROCESS.GIT_ADD ["add", gpgIdFile] else []) ++
        GitCommit env gpgIdFile ("Added " ++ removeGpgSuffix gpgIdFile ++ " using QtPass.")
      else []) ++
      reencryptPath env path)) ++
  [.transactionEnd PROCESS.PASS_INIT]

/-! ## `Keybase::Move` -/

/-- The tail of `Move` and `Copy` : "reecrypt all files under the new folder". -/
def reencryptDestination (env : Env) (destFileInfo : QFileInfo) : List Effect :=
  if destFileInfo.isDir then reencryptPath env destFileInfo.absoluteFilePath
  else if destFileInfo.isFile then reencryptPath env destFileInfo.dirPath
  else []

/-- Embeds `Keybase::Move(src, dest, force)` -/
def Move (env : Env) (src dest : String) (force : Bool) : List Effect :=
  let destFileInfo := env.fileInfo dest
  [.transactionBegin PROCESS.PASS_MOVE] ++
  (if env.useGit then
    executeGit env PROCESS.GIT_MOVE (["mv"] ++ (if force then ["-f"] else []) ++ [src, dest]) ++
    GitCommit env "" (arg (arg "moved from %1 to %2 using QTPass." src) dest)
  else
    let srcFileInfo := env.fileInfo src
    let destCopy :=
      if srcFileInfo.isFile && destFileInfo.isDir then
        destFileInfo.absoluteFilePath ++ env.separator ++ srcFileInfo.fileName
      else dest
    (if force then [.remove destCopy] else []) ++ [.rename src destCopy]) ++
  reencryptDestination env destFileInfo ++
  [.transactionEnd PROCESS.PASS_MOVE]

/-! ## Observations on effect traces -/

/-- The effect is `emit critical(title, ...)` with the given title. -/
def Effect.isCriticalTitled (title : String) : Effect → Bool
  | .critical t _ => t = title
  | _ => false

/-- The effect is the list-only call that opens the processing of a scanned
file (the only blocking call whose first argument is `-v`). -/
def Effect.isListCall : Effect → Bool
  | .executeBlocking _ args _ => args.head? = some "-v"
  | _ => false

/-- The decrypt call of `reencryptPath` left `local_lastDecrypt` empty or equal
to the sentinel. -/
def decryptFails (env : Env) (fileName : String) : Prop :=
  decryptOutput env fileName = "" ∨ decryptOutput env fileName = "Could not decrypt"

instance (env : Env) (fileName : String) : Decidable (decryptFails env fileName) :=
  inferInstanceAs (Decidable (_ ∨ _))

/-- The list-only call issued for a scanned file. -/
def listCall (env : Env) (f : GpgFile) : Effect :=
  .executeBlocking env.gpgExecutable (listArgs f.fileName) ""

/-- The decrypt call issued for a scanned file. -/
def decryptCall (env : Env) (f : GpgFile) : Effect :=
  .executeBlocking env.gpgExecutable (decryptArgs f.fileName) ""

/-! ## Sample surroundings -/

/-- The answers of a `QFileInfo` for a path at which nothing exists. -/
def nothingAt (path : String) : QFileInfo :=
  ⟨false, false, false, path, path, "."⟩

/-- A store under `/store` with git enabled, whose files are encrypted for
`0123456789ABCDEF` and decrypt to `pw` (except `/store/broken.gpg`, whose
decryption stores nothing), scanned as `files`, and whose recipient resolver
answers `recipients` for every file. -/
def sampleEnv (recipients : List String) (files : List GpgFile) : Env :=
  ⟨"/store", true, false, false, false, true, "git", "gpg", "keybase",
    fun _ => recipients, nothingAt, fun _ => true, fun _ f => f, "/", fun _ => files,
    fun _ args _ =>
      if args.head? = some "-v" then some ("gpg: public key is 0123456789ABCDEF\n", "")
      else if args.getLast? = some "/store/broken.gpg" then none
      else some ("pw", "")⟩

/-- The sample store at a moment when `b/x.gpg` is a regular file of the
directory `b`. -/
def sampleEnvWithDestination (recipients : List String) (files : List GpgFile) : Env :=
  { sampleEnv recipients files with
    fileInfo := fun path =>
      if path = "b/x.gpg" then ⟨true, true, false, "/store/b/x.gpg", "x.gpg", "b"⟩
      else nothingAt path }

/-- The sample store scanned from the current directory `.` : one file in the
sub-directory `sub`, governed by the key the files are encrypted for, then one
file directly in `.`, governed by another key. -/
def sampleEnvCurrentDir : Env :=
  { sampleEnv [] [⟨"./sub/a.gpg", "./sub"⟩, ⟨"./b.gpg", "."⟩] with
    getRecipientList := fun file =>
      if file = "./sub/a.gpg" then ["0123456789ABCDEF"] else ["FEDCBA9876543210"] }

/-! ## The match/mismatch decision of a round -/

/-- The list `actualKeys` of `reencryptPath` before `actualKeys.sort()` : the key
ids collected from the lines of `keys`, in line order. -/
def collectedKeys (keys : String) : List String :=
  (split '\n' keys).filterMap keyOfLine

/-- Whether the round of the loop of `reencryptPath` for the first file of
`files` takes the branch `if (actualKeys != gpgId)` : that branch, and only
that branch, issues the decrypt call of the file right after its list-only
call. -/
def takesMismatchBranch (env : Env) (files : List GpgFile) (gpgId : List String) : Bool :=
  match files with
  | [] => false
  | f :: _ =>
    decide ((reencryptLoop env files gpgId).1.take 2 = [listCall env f, decryptCall env f])

end Keybase

/-! # Properties -/

namespace Keybase

open PROCESS

/-! ## The tracker and `Keybase::finished` -/

theorem foldl_transactionAdd_open (kind : PROCESS) (ids p : List PROCESS) :
    ids.foldl (fun t id => transactionAdd id t) [⟨kind, p, true⟩] = [⟨kind, p ++ ids, true⟩] := by
  induction ids generalizing p with
  | nil => simp
  | cons a l ih =>
    simp only [List.foldl_cons]
    have h : transactionAdd a [⟨kind, p, true⟩] = [⟨kind, p ++ [a], true⟩] := by
      simp [transactionAdd, addToLastOpen]
    rw [h, ih]
    simp

theorem registered_eq (kind : PROCESS) (ids : List PROCESS) (h : ids ≠ []) :
    registered kind ids = [⟨kind, ids, false⟩] := by
  unfold registered transactionStart
  rw [List.nil_append, foldl_transactionAdd_open]
  cases ids with
  | nil => exact absurd rfl h
  | cons a l => simp [transactionEnd, closeLastOpen]

theorem concatAll_append (l m : List String) :
    concatAll (l ++ m) = concatAll l ++ concatAll m := by
  induction l with
  | nil => simp [concatAll]
  | cons a l ih => simp [concatAll, ih, String.append_assoc]

theorem run_append {τ : Type} (isOver : PROCESS → τ → PROCESS × τ) (s : State τ)
    (l m : List Completion) :
    run isOver s (l ++ m) =
      ((run isOver (run isOver s l).1 m).1,
        (run isOver s l).2 ++ (run isOver (run isOver s l).1 m).2) := by
  induction l generalizing s with
  | nil => simp [run]
  | cons a l ih => simp [run, ih]

/-- A single transaction with pending set `P` : when the completions are a
permutation of `P` and none before the last triggers a cancellation, only the
last one emits. -/
theorem run_single_transaction (kind : PROCESS) (hk : kind ≠ INVALID) (b : Bool)
    (cs : List Completion) (c : Completion) (P : List PROCESS) (acc : String)
    (hperm : ((cs ++ [c]).map (fun d => d.id)).Perm P)
    (hquiet : ∀ d ∈ cs, d.exitCode = 0 ∨ d.cancelNext = []) :
    run transactionIsOver ⟨[⟨kind, P, b⟩], acc⟩ (cs ++ [c]) =
      (⟨[], ""⟩, cs.map (fun _ => none) ++
        [some ⟨kind, c.exitCode, acc ++ concatAll ((cs ++ [c]).map (fun d => d.out)), c.err⟩]) := by
  induction cs generalizing P acc with
  | nil =>
    have hP : P = [c.id] := by
      have := hperm.symm
      simpa using List.perm_singleton.mp this
    subst hP
    by_cases h0 : c.exitCode = 0 <;>
      simp [run, finished, transactionIsOver, hk, h0, concatAll]
  | cons d cs ih =>
    have hmem : d.id ∈ P := by
      apply hperm.subset
      simp
    have hrest : ((cs ++ [c]).map (fun d => d.id)).Perm (P.erase d.id) := by
      have := hperm.symm.erase d.id
      simpa using this.symm
    have hne : (P.erase d.id).isEmpty = false := by
      cases hP : P.erase d.id with
      | nil =>
        rw [hP] at hrest
        have := hrest.length_eq
        simp at this
      | cons x xs => rfl
    have hstep : finished transactionIsOver ⟨[⟨kind, P, b⟩], acc⟩ d =
        (⟨[⟨kind, P.erase d.id, b⟩], acc ++ d.out⟩, none) := by
      rcases hquiet d (by simp) with h0 | hc
      · simp [finished, transactionIsOver, hmem, hne, h0]
      · by_cases h0 : d.exitCode = 0
        · simp [finished, transactionIsOver, hmem, hne, h0]
        · simp [finished, transactionIsOver, hmem, hne, h0, hc, cancelLoop]
    have hq : ∀ x ∈ cs, x.exitCode = 0 ∨ x.cancelNext = [] := fun x hx =>
      hquiet x (List.mem_cons_of_mem _ hx)
    have := ih (P.erase d.id) (acc ++ d.out) hrest hq
    rw [List.cons_append, run, hstep]
    simp only []
    rw [this]
    simp [concatAll, String.append_assoc]

theorem finished_output {τ : Type} (isOver : PROCESS → τ → PROCESS × τ) (s : State τ)
    (c : Completion) :
    (∀ e, (finished isOver s c).2 = some e →
        e.output = s.transactionOutput ++ c.out ∧
          (finished isOver s c).1.transactionOutput = "") ∧
      ((finished isOver s c).2 = none →
        (finished isOver s c).1.transactionOutput = s.transactionOutput ++ c.out) := by
  unfold finished
  by_cases h0 : c.exitCode = 0 <;> by_cases hp : (isOver c.id s.tracker).1 = INVALID
  · simp [h0, hp]
  · simp only [h0, hp, if_true, if_false]
    constructor
    · intro e he
      simp at he
      subst he
      simp
    · intro h; simp at h
  · simp only [h0, hp, if_true, if_false]
    rcases hcl : cancelLoop isOver (isOver c.id s.tracker).2 c.cancelNext with ⟨o, t2⟩
    cases o with
    | none => simp
    | some p =>
      constructor
      · intro e he
        simp at he
        subst he
        simp
      · intro h; simp at h
  · simp only [h0, hp, if_true, if_false]
    constructor
    · intro e he
      simp at he
      subst he
      simp
    · intro h; simp at h

theorem run_quiet_output {τ : Type} (isOver : PROCESS → τ → PROCESS × τ) (s : State τ)
    (seg : List Completion) (h : ∀ o ∈ (run isOver s seg).2, o = none) :
    (run isOver s seg).1.transactionOutput =
      s.transactionOutput ++ concatAll (seg.map (fun d => d.out)) := by
  induction seg generalizing s with
  | nil => simp [run, concatAll]
  | cons d seg ih =>
    simp only [run, List.mem_cons, forall_eq_or_imp] at h
    simp only [run, List.map_cons, concatAll]
    rw [ih _ h.2, (finished_output isOver s d).2 h.1, String.append_assoc]

theorem run_after_event_output {τ : Type} (isOver : PROCESS → τ → PROCESS × τ) (s : State τ)
    (pre : List Completion) (e0 : Finished)
    (h : (run isOver s pre).2.getLast? = some (some e0)) :
    (run isOver s pre).1.transactionOutput = "" := by
  induction pre generalizing s with
  | nil => simp [run] at h
  | cons d pre ih =>
    cases pre with
    | nil =>
      simp only [run, List.getLast?_singleton, Option.some.injEq] at h
      simpa [run] using ((finished_output isOver s d).1 e0 h).2
    | cons d2 pre2 =>
      have h2 : (run isOver (finished isOver s d).1 (d2 :: pre2)).2.getLast? = some (some e0) := by
        rw [run] at h
        simp only [] at h
        have hr : (run isOver (finished isOver s d).1 (d2 :: pre2)).2 =
            (finished isOver (finished isOver s d).1 d2).2 ::
              (run isOver (finished isOver (finished isOver s d).1 d2).1 pre2).2 := by
          rw [run]
        rw [hr] at h ⊢
        rw [List.getLast?_cons_cons] at h
        exact h
      simpa [run] using ih _ h2

/-- C1, as stated, fails: `Insert` with overwrite registers two invocations
(the encryption, tagged PASS_INSERT, and the commit) under one PASS_INSERT
transaction.  When the encryption completes first with a non-zero exit code
while the commit is the next invocation the executor can cancel, the failure
branch of `Keybase::finished` cancels it and emits the consolidated event on
the first completion; if the second (N-th) completion still arrives, it emits
nothing. -/
theorem finished_emits_before_last_on_failure :
    (run transactionIsOver ⟨registered PASS_INSERT [PASS_INSERT, GIT_COMMIT], ""⟩
        [⟨PASS_INSERT, 1, "a", "e", [GIT_COMMIT]⟩]).2 =
        [some ⟨PASS_INSERT, 1, "a", "e"⟩] ∧
      (run transactionIsOver ⟨registered PASS_INSERT [PASS_INSERT, GIT_COMMIT], ""⟩
        [⟨PASS_INSERT, 1, "a", "e", [GIT_COMMIT]⟩, ⟨GIT_COMMIT, 0, "b", "", []⟩]).2 =
        [some ⟨PASS_INSERT, 1, "a", "e"⟩, none] := by
  decide

/-- C1 (amended): for N >= 1 invocations registered with `transactionAdd` under
one transaction of a kind other than the INVALID sentinel, and every arrival
order of their N completions in which no completion before the last one
triggers a cancellation (its exit code is 0, or the executor has nothing left to
cancel), `Keybase::finished` emits the consolidated event exactly once, on the
N-th completion: the first N-1 calls emit nothing and the N-th calls
`Pass::finished` with the transaction's kind and the accumulated output. -/
theorem finished_emits_once_on_last_completion (kind : PROCESS) (ids : List PROCESS)
    (cs : List Completion) (c : Completion) (acc : String)
    (hk : kind ≠ INVALID)
    (hperm : ((cs ++ [c]).map (fun d => d.id)).Perm ids)
    (hquiet : ∀ d ∈ cs, d.exitCode = 0 ∨ d.cancelNext = []) :
    (run transactionIsOver ⟨registered kind ids, acc⟩ (cs ++ [c])).2 =
      List.replicate cs.length none ++
        [some ⟨kind, c.exitCode, acc ++ concatAll ((cs ++ [c]).map (fun d => d.out)), c.err⟩] := by
  have hne : ids ≠ [] := by
    intro h
    rw [h] at hperm
    have := hperm.length_eq
    simp at this
  rw [registered_eq kind ids hne, run_single_transaction kind hk false cs c ids acc hperm hquiet]
  simp

theorem finished_emits_once_on_last_completion_witness :
    (run transactionIsOver ⟨registered PASS_INSERT [PASS_INSERT, GIT_ADD, GIT_COMMIT], ""⟩
      ([⟨GIT_ADD, 0, "b", "", []⟩, ⟨GIT_COMMIT, 1, "c", "", []⟩] ++
        [⟨PASS_INSERT, 0, "a", "", [GIT_PUSH]⟩])).2 =
      [none, none, some ⟨PASS_INSERT, 0, "bca", ""⟩] :=
  finished_emits_once_on_last_completion PASS_INSERT [PASS_INSERT, GIT_ADD, GIT_COMMIT]
    [⟨GIT_ADD, 0, "b", "", []⟩, ⟨GIT_COMMIT, 1, "c", "", []⟩]
    ⟨PASS_INSERT, 0, "a", "", [GIT_PUSH]⟩ "" (by decide) (by decide) (by decide)

/-- C6: whatever `transactionIsOver` and `cancelNext` answer, when a call of
`Keybase::finished` emits the consolidated event, the output it passes to
`Pass::finished` is the concatenation, in arrival order, of the stdout of every
completion received since the previous consolidated event (or since the start,
when the accumulator is still empty), the emitting completion included, and
right after that call the accumulator is empty.  Here `pre` are the completions
up to the previous event, `seg` the completions after it that emitted nothing,
and `c` the completion that emits `e`. -/
theorem finished_output_since_previous_event {τ : Type}
    (isOver : PROCESS → τ → PROCESS × τ) (s0 : State τ)
    (pre seg : List Completion) (c : Completion) (e : Finished)
    (hprev : (pre = [] ∧ s0.transactionOutput = "") ∨
      ∃ e0, (run isOver s0 pre).2.getLast? = some (some e0))
    (hseg : ∀ o ∈ (run isOver (run isOver s0 pre).1 seg).2, o = none)
    (hc : (finished isOver (run isOver s0 (pre ++ seg)).1 c).2 = some e) :
    e.output = concatAll ((seg ++ [c]).map (fun d => d.out)) ∧
      (finished isOver (run isOver s0 (pre ++ seg)).1 c).1.transactionOutput = "" := by
  have hpre : (run isOver s0 pre).1.transactionOutput = "" := by
    rcases hprev with ⟨hp, h0⟩ | ⟨e0, he0⟩
    · subst hp
      simpa [run] using h0
    · exact run_after_event_output isOver s0 pre e0 he0
  have hacc : (run isOver s0 (pre ++ seg)).1.transactionOutput =
      concatAll (seg.map (fun d => d.out)) := by
    rw [run_append]
    simp only []
    rw [run_quiet_output isOver _ seg hseg, hpre]
    simp
  have := (finished_output isOver (run isOver s0 (pre ++ seg)).1 c).1 e hc
  refine ⟨?_, this.2⟩
  rw [this.1, hacc, List.map_append, concatAll_append]
  simp [concatAll]

theorem finished_output_since_previous_event_witness :
    (⟨PASS_INSERT, 0, "bc", ""⟩ : Finished).output =
        concatAll (List.map (fun d : Completion => d.out)
          ([⟨GIT_ADD, 0, "b", "", []⟩] ++ [⟨GIT_COMMIT, 0, "c", "", []⟩])) ∧
      (finished transactionIsOver
        (run transactionIsOver
          ⟨registered PASS_SHOW [PASS_SHOW] ++ registered PASS_INSERT [GIT_ADD, GIT_COMMIT], ""⟩
          ([⟨PASS_SHOW, 0, "a", "", []⟩] ++ [⟨GIT_ADD, 0, "b", "", []⟩])).1
        ⟨GIT_COMMIT, 0, "c", "", []⟩).1.transactionOutput = "" :=
  finished_output_since_previous_event transactionIsOver
    ⟨registered PASS_SHOW [PASS_SHOW] ++ registered PASS_INSERT [GIT_ADD, GIT_COMMIT], ""⟩
    [⟨PASS_SHOW, 0, "a", "", []⟩] [⟨GIT_ADD, 0, "b", "", []⟩] ⟨GIT_COMMIT, 0, "c", "", []⟩
    ⟨PASS_INSERT, 0, "bc", ""⟩
    (Or.inr ⟨⟨PASS_SHOW, 0, "a", ""⟩, by decide⟩) (by decide) (by decide)

/-! ## Sorting and the recipient comparison -/

instance : IsTotal String qLe := ⟨fun a b => le_total a.toList b.toList⟩

instance : IsTrans String qLe := ⟨fun _ _ _ h1 h2 => le_trans h1 h2⟩

instance : IsAntisymm String qLe :=
  ⟨fun _ _ h1 h2 => String.ext (le_antisymm h1 h2)⟩

theorem sort_perm (l : List String) : (sort l).Perm l :=
  List.perm_insertionSort qLe l

theorem sort_sorted (l : List String) : (sort l).Sorted qLe :=
  List.sorted_insertionSort qLe l

theorem sort_eq_iff_perm (a b : List String) : sort a = sort b ↔ a.Perm b := by
  constructor
  · intro h
    exact ((sort_perm a).symm.trans (h ▸ List.Perm.refl _)).trans (sort_perm b)
  · intro h
    exact List.eq_of_perm_of_sorted (((sort_perm a).trans h).trans (sort_perm b).symm)
      (sort_sorted a) (sort_sorted b)

/-! ## The recipient parser -/

theorem splitChars_eq (sep : Char) (l : List Char) :
    splitChars sep l = l.takeWhile (fun c => c ≠ sep) ::
      (match l.dropWhile (fun c => c ≠ sep) with
        | [] => []
        | _ :: rest => splitChars sep rest) := by
  induction l with
  | nil => simp [splitChars]
  | cons c cs ih =>
    by_cases h : c = sep
    · simp [splitChars, h]
    · rw [splitChars, if_neg h, ih]
      simp [h]

theorem splitChars_get (n : Nat) (l : List Char) :
    (splitChars ' ' l)[n]? = spaceField n l := by
  induction n generalizing l with
  | zero => rw [splitChars_eq]; simp [spaceField]
  | succ n ih =>
    rw [splitChars_eq, spaceField]
    cases h : l.dropWhile (fun c => c ≠ ' ') with
    | nil => simp
    | cons x rest => simp [ih]

theorem keyOfLine_eq (current : String) :
    keyOfLine current =
      (spaceField 4 current.toList).bind
        (fun f => if f.length = 16 then some (String.mk f) else none) := by
  have h := splitChars_get 4 current.toList
  unfold keyOfLine split
  simp only [List.length_map, List.getD_eq_getElem?_getD, List.getElem?_map]
  rw [← h]
  cases hk : (splitChars ' ' current.toList)[4]? with
  | none =>
    have : (splitChars ' ' current.toList).length ≤ 4 := by
      by_contra hc
      push_neg at hc
      rw [List.getElem?_eq_getElem hc] at hk
      exact absurd hk (by simp)
    simp only [String.toList] at this
    simp [Nat.not_lt.mpr this]
  | some f =>
    have : 4 < (splitChars ' ' current.toList).length := by
      by_contra hc
      push_neg at hc
      rw [List.getElem?_eq_none hc] at hk
      exact absurd hk (by simp)
    simp only [String.toList] at this
    simp [this, String.length]

/-- C10, as stated, fails: a tab is whitespace but `current.split(" ")` only
splits at space characters.  On a line whose key id follows a tab the code
finds four fields and no key, while the 5th whitespace-separated field is a
16-character key id. -/
theorem actualKeys_differ_from_whitespace_fields :
    actualKeysOf "gpg: public key is\t0123456789ABCDEF" = [] ∧
      actualKeysAsWorded "gpg: public key is\t0123456789ABCDEF" = ["0123456789ABCDEF"] := by
  decide

/-- C10 (amended): for every list-recipients output text (stdout followed by
stderr), the actual recipient list computed by `reencryptPath` is the sorted
list of the 5th field of each line, where lines are delimited by line feeds and
fields by single space characters (empty fields counted, no other whitespace
separating), taken from the lines that have at least five such fields and whose
5th field is exactly 16 characters long; every element of the result has length
16 and the result is in ascending order. -/
theorem actualKeys_are_fifth_space_fields (keys : String) :
    actualKeysOf keys =
        sort ((split '\n' keys).filterMap (fun line =>
          (spaceField 4 line.toList).bind
            (fun f => if f.length = 16 then some (String.mk f) else none))) ∧
      (∀ k ∈ actualKeysOf keys, k.length = 16) ∧
      (actualKeysOf keys).Sorted qLe := by
  refine ⟨?_, ?_, sort_sorted _⟩
  · unfold actualKeysOf
    congr 2
    funext line
    exact keyOfLine_eq line
  · intro k hk
    unfold actualKeysOf at hk
    have hk2 := (sort_perm _).subset hk
    rw [List.mem_filterMap] at hk2
    obtain ⟨line, _, hline⟩ := hk2
    unfold keyOfLine at hline
    simp only [] at hline
    split at hline
    · split at hline
      · rename_i h16
        simp only [Option.some.injEq] at hline
        rw [← hline]
        exact h16
      · exact absurd hline (by simp)
    · exact absurd hline (by simp)

/-! ## `removeDir` -/

mutual
theorem removeDir_stopsAtFailure : ∀ (dirName : String) (d : Dir),
    StopsAtFailure (removeDir dirName d)
  | dirName, .mk present entries rmdirOk => by
    have ih := removeEntries_stopsAtFailure dirName entries
    unfold removeDir
    cases present with
    | false => left; simp
    | true =>
      simp only [if_true]
      rcases hr : removeEntries dirName entries with ⟨r, done⟩
      rw [hr] at ih
      cases r with
      | false => simpa [StopsAtFailure] using ih
      | true =>
        have hall : ∀ a ∈ done, a.ok = true := by
          rcases ih with ⟨_, h⟩ | ⟨h, _⟩
          · exact h
          · simp at h
        cases rmdirOk with
        | true =>
          left
          refine ⟨rfl, ?_⟩
          intro a ha
          simp only [List.mem_append, List.mem_singleton] at ha
          rcases ha with ha | ha
          · exact hall a ha
          · rw [ha]
        | false =>
          right
          exact ⟨rfl, done, ⟨dirName, false⟩, rfl, rfl, hall⟩
theorem removeEntries_stopsAtFailure : ∀ (dirName : String) (l : List Info),
    StopsAtFailure (removeEntries dirName l)
  | dirName, [] => by left; simp [removeEntries]
  | dirName, .dir name d :: rest => by
    have ih1 := removeDir_stopsAtFailure (absoluteFilePath dirName name) d
    have ih2 := removeEntries_stopsAtFailure dirName rest
    unfold removeEntries
    rcases hr : removeDir (absoluteFilePath dirName name) d with ⟨r, done⟩
    rw [hr] at ih1
    cases r with
    | false => simpa [StopsAtFailure] using ih1
    | true =>
      have hall : ∀ a ∈ done, a.ok = true := by
        rcases ih1 with ⟨_, h⟩ | ⟨h, _⟩
        · exact h
        · simp at h
      simp only []
      rcases ih2 with ⟨h1, h2⟩ | ⟨h1, pre, last, h2, h3, h4⟩
      · left
        refine ⟨h1, ?_⟩
        intro a ha
        simp only [List.mem_append] at ha
        rcases ha with ha | ha
        · exact hall a ha
        · exact h2 a ha
      · right
        refine ⟨h1, done ++ pre, last, ?_, h3, ?_⟩
        · simp only []
          rw [h2, List.append_assoc]
        · intro a ha
          simp only [List.mem_append] at ha
          rcases ha with ha | ha
          · exact hall a ha
          · exact h4 a ha
  | dirName, .file name removeOk :: rest => by
    have ih2 := removeEntries_stopsAtFailure dirName rest
    unfold removeEntries
    cases removeOk with
    | false =>
      right
      exact ⟨rfl, [], ⟨absoluteFilePath dirName name, false⟩, rfl, rfl, by simp⟩
    | true =>
      simp only [if_true]
      rcases ih2 with ⟨h1, h2⟩ | ⟨h1, pre, last, h2, h3, h4⟩
      · left
        refine ⟨h1, ?_⟩
        intro a ha
        simp only [List.mem_cons] at ha
        rcases ha with ha | ha
        · rw [ha]
        · exact h2 a ha
      · right
        refine ⟨h1, ⟨absoluteFilePath dirName name, true⟩ :: pre, last, ?_, h3, ?_⟩
        · simp only []
          rw [h2, List.cons_append]
        · intro a ha
          simp only [List.mem_cons] at ha
          rcases ha with ha | ha
          · rw [ha]
          · exact h4 a ha
end

/-- C8: `removeDir` is a total function of the directory tree and of the
outcome of every deletion (it terminates on every finite tree).  Whenever one
of the deletions it attempts fails, that attempt is the last one of the run (no
later sibling at any level is touched and no enclosing directory is removed),
the attempts before it all succeeded (the run performs nothing but deletions,
so those entries stay deleted) and the result is `false` ; and the result is
`true` only when every attempted deletion succeeded. -/
theorem removeDir_stops_at_first_failure (dirName : String) (d : Dir) :
    (∀ before a after, (removeDir dirName d).2 = before ++ a :: after → a.ok = false →
        after = [] ∧ (∀ b ∈ before, b.ok = true) ∧ (removeDir dirName d).1 = false) ∧
      ((removeDir dirName d).1 = true → ∀ a ∈ (removeDir dirName d).2, a.ok = true) := by
  rcases removeDir_stopsAtFailure dirName d with ⟨h1, h2⟩ | ⟨h1, pre, last, h2, h3, h4⟩
  · refine ⟨?_, fun _ => h2⟩
    intro before a after heq ha
    have := h2 a (by rw [heq]; simp)
    rw [this] at ha
    exact absurd ha (by simp)
  · refine ⟨?_, fun h => absurd h (by simp [h1])⟩
    intro before a after heq ha
    rw [h2] at heq
    have hmem : a ∈ pre ++ [last] := by rw [heq]; simp
    by_cases hlast : after = []
    · subst hlast
      have heq2 : pre ++ [last] = before ++ [a] := heq
      have := List.append_inj' heq2 rfl
      exact ⟨rfl, fun b hb => h4 b (this.1 ▸ hb), h1⟩
    · exfalso
      obtain ⟨init, z, hz⟩ : ∃ init z, after = init ++ [z] :=
        ⟨after.dropLast, after.getLast hlast, (List.dropLast_append_getLast hlast).symm⟩
      rw [hz] at heq
      have heq2 : pre ++ [last] = (before ++ a :: init) ++ [z] := by
        rw [heq]; simp
      have := List.append_inj' heq2 rfl
      have ha2 : a ∈ pre := by rw [this.1]; simp
      have := h4 a ha2
      rw [this] at ha
      exact absurd ha (by simp)

/-! ## `Insert` -/

/-- C3: for every file, value and overwrite flag, when the recipient list
resolved for the file is empty, `Insert` issues no subprocess invocation at all
(neither asynchronous nor blocking: no encrypt, no git add, no git commit) and
raises the critical error titled "Can not edit" exactly once. -/
theorem Insert_without_recipients (env : Env) (file newValue : String) (overwrite : Bool)
    (h : env.getRecipientList (file ++ ".gpg") = []) :
    (Insert env file newValue overwrite).filter Effect.isInvocation = [] ∧
      ((Insert env file newValue overwrite).filter
        (Effect.isCriticalTitled "Can not edit")).length = 1 := by
  simp [Insert, h, Effect.isInvocation, Effect.isCriticalTitled]

theorem Insert_without_recipients_witness :
    (Insert (sampleEnv [] []) "/store/x" "secret" true).filter Effect.isInvocation = [] ∧
      ((Insert (sampleEnv [] []) "/store/x" "secret" true).filter
        (Effect.isCriticalTitled "Can not edit")).length = 1 :=
  Insert_without_recipients (sampleEnv [] []) "/store/x" "secret" true (by decide)

/-! ## `Init` -/

theorem writeUsers_eq (gpgIdFile : String) (users : List UserInfo) :
    writeUsers gpgIdFile users =
      (users.filter (fun u => u.enabled)).map
        (fun u => Effect.fileWrite gpgIdFile (u.key_id ++ "\n")) := by
  induction users with
  | nil => rfl
  | cons u us ih =>
    by_cases h : u.enabled = true <;> simp [writeUsers, h, ih]

theorem secretSelected_false (users : List UserInfo)
    (h : ∀ u ∈ users, u.enabled = true → u.have_secret = false) :
    secretSelected users = false := by
  induction users with
  | nil => rfl
  | cons u us ih =>
    have ih2 := ih (fun v hv => h v (List.mem_cons_of_mem _ hv))
    by_cases he : u.enabled = true
    · simp [secretSelected, he, ih2, h u (List.mem_cons_self _ _) he]
    · simp [secretSelected, he, ih2]

/-- C2, as stated, fails: with one enabled user who has no secret key and a
writable recipients file, `Init` writes the file and raises the critical error,
then returns: the trace ends there, `reencryptPath` is never entered. -/
theorem Init_without_secret_key_does_not_reencrypt :
    Init (sampleEnv ["KEYA"] [⟨"/store/secret.gpg", "/store"⟩]) "/store/"
        [⟨"KEYA", false, true⟩] =
      [.transactionBegin PASS_INIT, .fileOpen "/store/.gpg-id",
        .fileWrite "/store/.gpg-id" "KEYA\n", .fileClose "/store/.gpg-id",
        .critical "Check selected users!"
          ("None of the selected keys have a secret key available.\n" ++
            "You will not be able to decrypt any newly added passwords!"),
        .transactionEnd PASS_INIT] ∧
      Effect.startReencryptPath ∉
        Init (sampleEnv ["KEYA"] [⟨"/store/secret.gpg", "/store"⟩]) "/store/"
          [⟨"KEYA", false, true⟩] := by
  decide

/-- C2 (amended): for every list of users in which no enabled user has
have_secret set, and a recipients file that can be opened for writing, `Init`
writes the recipients file (one key id per enabled user, in order), raises the
"no secret key" critical error and returns: it issues no git invocation and
does not invoke `reencryptPath`. -/
theorem Init_without_secret_key (env : Env) (path : String) (users : List UserInfo)
    (hopen : env.canOpen (path ++ ".gpg-id") = true)
    (hsecret : ∀ u ∈ users, u.enabled = true → u.have_secret = false) :
    Init env path users =
      [.transactionBegin PASS_INIT, .fileOpen (path ++ ".gpg-id")] ++
        (users.filter (fun u => u.enabled)).map
          (fun u => Effect.fileWrite (path ++ ".gpg-id") (u.key_id ++ "\n")) ++
        [.fileClose (path ++ ".gpg-id"),
          .critical "Check selected users!"
            ("None of the selected keys have a secret key available.\n" ++
              "You will not be able to decrypt any newly added passwords!"),
          .transactionEnd PASS_INIT] := by
  simp [Init, hopen, secretSelected_false users hsecret, writeUsers_eq]

theorem Init_without_secret_key_witness :
    Init (sampleEnv [] []) "/store/" [⟨"K1", false, true⟩, ⟨"K2", true, false⟩] =
      [.transactionBegin PASS_INIT, .fileOpen ("/store/" ++ ".gpg-id")] ++
        (([⟨"K1", false, true⟩, ⟨"K2", true, false⟩] : List UserInfo).filter
          (fun u => u.enabled)).map
          (fun u => Effect.fileWrite ("/store/" ++ ".gpg-id") (u.key_id ++ "\n")) ++
        [.fileClose ("/store/" ++ ".gpg-id"),
          .critical "Check selected users!"
            ("None of the selected keys have a secret key available.\n" ++
              "You will not be able to decrypt any newly added passwords!"),
          .transactionEnd PASS_INIT] :=
  Init_without_secret_key (sampleEnv [] []) "/store/"
    [⟨"K1", false, true⟩, ⟨"K2", true, false⟩] (by decide) (by decide)

/-! ## `QString::arg` and `Move` -/

theorem argPieces_text_append (p rest : List Char) (h : '%' ∉ p) :
    argPieces .text (p ++ rest) = p.map ArgPiece.chr ++ argPieces .text rest := by
  induction p with
  | nil => rfl
  | cons c cs ih =>
    have hc : c ≠ '%' := fun e => h (by simp [e])
    have hcs : '%' ∉ cs := fun e => h (List.mem_cons_of_mem _ e)
    simp [argPieces, hc, ih hcs]

theorem markerNumbers_chr_append (p : List Char) (ps : List ArgPiece) :
    markerNumbers (p.map ArgPiece.chr ++ ps) = markerNumbers ps := by
  induction p with
  | nil => rfl
  | cons c cs ih => simpa [markerNumbers] using ih

theorem substitute_chr_append (m : Nat) (a p : List Char) (ps : List ArgPiece) :
    substitute m a (p.map ArgPiece.chr ++ ps) = p ++ substitute m a ps := by
  induction p with
  | nil => rfl
  | cons c cs ih => simpa [substitute] using ih

theorem arg_moved_first (src : String) :
    arg "moved from %1 to %2 using QTPass." src =
      String.mk ("moved from ".toList ++ src.toList ++ " to %2 using QTPass.".toList) := by
  have hn : (markerNumbers (argPieces .text "moved from %1 to %2 using QTPass.".toList)).min? =
      some 1 := by decide
  unfold arg
  rw [hn]
  rfl

theorem arg_moved (src dest : String) (hsrc : '%' ∉ src.toList) :
    arg (arg "moved from %1 to %2 using QTPass." src) dest =
      "moved from " ++ src ++ " to " ++ dest ++ " using QTPass." := by
  rw [arg_moved_first]
  have hp : '%' ∉ "moved from ".toList ++ src.toList := by
    intro h
    rcases List.mem_append.mp h with h | h
    · revert h; decide
    · exact hsrc h
  have hpieces : argPieces .text
      ("moved from ".toList ++ src.toList ++ " to %2 using QTPass.".toList) =
      ("moved from ".toList ++ src.toList).map ArgPiece.chr ++
        argPieces .text " to %2 using QTPass.".toList :=
    argPieces_text_append _ _ hp
  have hn : (markerNumbers (argPieces .text " to %2 using QTPass.".toList)).min? = some 2 := by
    decide
  have hs : substitute 2 dest.toList (argPieces .text " to %2 using QTPass.".toList) =
      " to ".toList ++ dest.toList ++ " using QTPass.".toList := rfl
  unfold arg
  simp only [String.toList] at *
  rw [hpieces, markerNumbers_chr_append, hn]
  simp only []
  rw [substitute_chr_append, hs]
  apply String.ext
  simp [String.data_append]

/-- C4, as stated, fails in two ways.  When nothing exists at dest at the time
of the check (as before the queued `git mv` has run) `Move` issues the move and
the commit and ends: `reencryptPath` is not run.  And a src that spells a
place marker is substituted a second time by `.arg(dest)` : for src `%1` the
commit message is not "moved from %1 to b/x.gpg using QTPass.". -/
theorem Move_without_destination_does_not_reencrypt :
    Move (sampleEnv ["KEYA"] [⟨"b/x.gpg", "b"⟩]) "a/x.gpg" "b/x.gpg" true =
      [.transactionBegin PASS_MOVE,
        .executeWrapper GIT_MOVE "git" ["mv", "-f", "a/x.gpg", "b/x.gpg"] "",
        .executeWrapper GIT_COMMIT "git"
          ["commit", "-m", "moved from a/x.gpg to b/x.gpg using QTPass.", "--", ""] "",
        .transactionEnd PASS_MOVE] ∧
      Move (sampleEnv ["KEYA"] [⟨"b/x.gpg", "b"⟩]) "%1" "b/x.gpg" true =
        [.transactionBegin PASS_MOVE,
          .executeWrapper GIT_MOVE "git" ["mv", "-f", "%1", "b/x.gpg"] "",
          .executeWrapper GIT_COMMIT "git"
            ["commit", "-m", "moved from b/x.gpg to %2 using QTPass.", "--", ""] "",
          .transactionEnd PASS_MOVE] := by
  decide

/-- C4 (amended): for every src that contains no `%` character and every dest,
`Move` with git enabled and force = true issues, in this order, the git
invocation with arguments [mv, -f, src, dest], then a git commit whose message
is "moved from <src> to <dest> using QTPass.", and then runs `reencryptPath`
over dest itself when dest is a directory at the time of the check, over the
directory containing dest when dest is a regular file at that time, and not at
all when dest is neither. -/
theorem Move_with_git_forced (env : Env) (src dest : String)
    (hgit : env.useGit = true) (hsrc : '%' ∉ src.toList) :
    Move env src dest true =
      [.transactionBegin PASS_MOVE,
        .executeWrapper GIT_MOVE env.gitExecutable ["mv", "-f", src, dest] "",
        .executeWrapper GIT_COMMIT env.gitExecutable
          ["commit", "-m", "moved from " ++ src ++ " to " ++ dest ++ " using QTPass.",
            "--", ""] ""] ++
        (if (env.fileInfo dest).isDir = true then
          reencryptPath env (env.fileInfo dest).absoluteFilePath
        else if (env.fileInfo dest).isFile = true then
          reencryptPath env (env.fileInfo dest).dirPath
        else []) ++
        [.transactionEnd PASS_MOVE] := by
  simp [Move, hgit, executeGit, GitCommit, reencryptDestination, arg_moved src dest hsrc]

theorem Move_with_git_forced_witness :
    Move (sampleEnvWithDestination ["KEYA"] []) "a/x.gpg" "b/x.gpg" true =
      [.transactionBegin PASS_MOVE,
        .executeWrapper GIT_MOVE "git" ["mv", "-f", "a/x.gpg", "b/x.gpg"] "",
        .executeWrapper GIT_COMMIT "git"
          ["commit", "-m", "moved from a/x.gpg to b/x.gpg using QTPass.", "--", ""] ""] ++
        reencryptPath (sampleEnvWithDestination ["KEYA"] []) "b" ++
        [.transactionEnd PASS_MOVE] :=
  Move_with_git_forced (sampleEnvWithDestination ["KEYA"] []) "a/x.gpg" "b/x.gpg"
    (by decide) (by decide)

/-! ## `reencryptPath` -/

theorem sort_nil : sort [] = [] := rfl

theorem filter_isListCall_commit (env : Env) (fileName : String) :
    (commitReencrypted env fileName).filter Effect.isListCall = [] := by
  unfold commitReencrypted
  split <;> simp [Effect.isListCall]

/-- One round of the loop whose file does not take the `return` : the round's
effects hold exactly one list-only call and the loop goes on with the rest. -/
theorem reencryptLoop_cons_continue (env : Env) (f : GpgFile) (rest : List GpgFile)
    (gpgId : List String)
    (h : decryptFails env f.fileName ∨ env.getRecipientList f.fileName ≠ []) :
    ∃ round g, reencryptLoop env (f :: rest) gpgId =
        (round ++ (reencryptLoop env rest g).1, (reencryptLoop env rest g).2) ∧
      round.filter Effect.isListCall = [listCall env f] := by
  rw [reencryptLoop]
  simp only []
  generalize (if f.path ≠ currentDirPath then sort (env.getRecipientList f.fileName)
    else gpgId) = g
  split_ifs with h1 h2 h3
  · exfalso
    rcases h with h | h
    · rcases h with h | h
      · exact h2.1 h
      · exact h2.2 h
    · exact h (by simpa using h3)
  · refine ⟨[listCall env f, decryptCall env f,
        .executeBlocking env.gpgExecutable
          (encryptArgs f.fileName (env.getRecipientList f.fileName))
          (withNewline (decryptOutput env f.fileName))] ++ commitReencrypted env f.fileName,
      g, ?_, ?_⟩
    · simp [listCall, decryptCall]
    · simp [List.filter_append, filter_isListCall_commit, Effect.isListCall, listCall,
        decryptCall, listArgs, decryptArgs, encryptArgs]
  · refine ⟨[listCall env f, decryptCall env f], g, ?_, ?_⟩
    · simp [listCall, decryptCall]
    · simp [Effect.isListCall, listCall, decryptCall, listArgs, decryptArgs]
  · refine ⟨[listCall env f], g, ?_, ?_⟩
    · simp [listCall]
    · simp [Effect.isListCall, listCall, listArgs]

theorem reencryptLoop_append (env : Env) (before rest : List GpgFile) (gpgId : List String)
    (h : ∀ g ∈ before, decryptFails env g.fileName ∨ env.getRecipientList g.fileName ≠ []) :
    ∃ rounds g, reencryptLoop env (before ++ rest) gpgId =
        (rounds ++ (reencryptLoop env rest g).1, (reencryptLoop env rest g).2) ∧
      rounds.filter Effect.isListCall = before.map (listCall env) := by
  induction before generalizing gpgId with
  | nil => exact ⟨[], gpgId, by simp, by simp⟩
  | cons f fs ih =>
    obtain ⟨round, g1, h1, h2⟩ :=
      reencryptLoop_cons_continue env f (fs ++ rest) gpgId (h f (List.mem_cons_self _ _))
    obtain ⟨rounds, g2, h3, h4⟩ := ih g1 (fun g hg => h g (List.mem_cons_of_mem _ hg))
    refine ⟨round ++ rounds, g2, ?_, ?_⟩
    · rw [List.cons_append, h1, h3]
      simp
    · simp [List.filter_append, h2, h4]

/-- The round of a mismatched file that decrypts and has recipients. -/
theorem reencryptLoop_cons_reencrypt (env : Env) (f : GpgFile) (rest : List GpgFile)
    (gpgId : List String)
    (hpath : f.path ≠ currentDirPath)
    (hdiff : actualKeysOf (listOutput env f.fileName) ≠ sort (env.getRecipientList f.fileName))
    (hdec : ¬ decryptFails env f.fileName)
    (hrec : env.getRecipientList f.fileName ≠ []) :
    reencryptLoop env (f :: rest) gpgId =
      ([listCall env f, decryptCall env f,
          .executeBlocking env.gpgExecutable
            (encryptArgs f.fileName (env.getRecipientList f.fileName))
            (withNewline (decryptOutput env f.fileName))] ++
        commitReencrypted env f.fileName ++
        (reencryptLoop env rest (sort (env.getRecipientList f.fileName))).1,
        (reencryptLoop env rest (sort (env.getRecipientList f.fileName))).2) := by
  have hd : decryptOutput env f.fileName ≠ "" ∧
      decryptOutput env f.fileName ≠ "Could not decrypt" := by
    unfold decryptFails at hdec
    push_neg at hdec
    exact hdec
  have hne : (env.getRecipientList f.fileName).isEmpty = false := by
    cases hl : env.getRecipientList f.fileName with
    | nil => exact absurd hl hrec
    | cons a l => rfl
  rw [reencryptLoop]
  simp [hpath, hdiff, hd, hne, listCall, decryptCall]

/-- The round of a mismatched file that decrypts but has no recipients. -/
theorem reencryptLoop_cons_return (env : Env) (f : GpgFile) (rest : List GpgFile)
    (gpgId : List String)
    (hpath : f.path ≠ currentDirPath)
    (hrec : env.getRecipientList f.fileName = [])
    (hkeys : actualKeysOf (listOutput env f.fileName) ≠ [])
    (hdec : ¬ decryptFails env f.fileName) :
    reencryptLoop env (f :: rest) gpgId =
      ([listCall env f, decryptCall env f,
          .critical "Can not edit"
            "Could not read encryption key to use, .gpg-id file missing or invalid."],
        true) := by
  have hd : decryptOutput env f.fileName ≠ "" ∧
      decryptOutput env f.fileName ≠ "Could not decrypt" := by
    unfold decryptFails at hdec
    push_neg at hdec
    exact hdec
  rw [reencryptLoop]
  simp [hpath, hrec, sort_nil, hkeys, hd, listCall, decryptCall]

/-- C5, as stated, fails in two ways.  A mismatched file that decrypts but
whose resolved recipient list is empty is listed and decrypted, then the
empty-recipients guard raises "Can not edit" and returns: no encrypt call is
issued.  And in a scan from `.` the governing list is not recomputed for a file
lying directly in `.` : `./b.gpg`, encrypted for 0123456789ABCDEF but governed
by FEDCBA9876543210, is compared with the list kept from `./sub/a.gpg`, found
matching, and neither decrypted nor encrypted. -/
theorem reencryptPath_does_not_always_encrypt :
    reencryptPath (sampleEnv [] [⟨"/store/secret.gpg", "/store"⟩]) "/store" =
      [.statusMsg "Re-encrypting from folder /store" 3000, .startReencryptPath,
        .executeBlocking "gpg" (listArgs "/store/secret.gpg") "",
        .executeBlocking "gpg" (decryptArgs "/store/secret.gpg") "",
        .critical "Can not edit"
          "Could not read encryption key to use, .gpg-id file missing or invalid."] ∧
      (actualKeysOf (listOutput sampleEnvCurrentDir "./b.gpg") ≠
          sort (sampleEnvCurrentDir.getRecipientList "./b.gpg") ∧
        reencryptPath sampleEnvCurrentDir "." =
          [.statusMsg "Re-encrypting from folder ." 3000, .startReencryptPath,
            .executeBlocking "gpg" (listArgs "./sub/a.gpg") "",
            .executeBlocking "gpg" (listArgs "./b.gpg") "",
            .endReencryptPath]) := by
  decide

/-- C5 (amended): for every encrypted file of the scan that is reached (no
earlier file left the scan through the empty-recipients guard: each earlier
file fails to decrypt or resolves to a non-empty recipient list), whose
directory path is not `.`, whose sorted actual recipient list differs from the
sorted recipient list resolved for it, whose decryption returns text that is
neither empty nor "Could not decrypt", and whose resolved recipient list is not
empty, `reencryptPath` issues, one right after the other, the list-only call,
the decrypt, and an encrypt whose "-r" arguments are exactly the recipients
resolved for the file (one "-r <keyid>" each, no other recipient) writing to
the same file, followed, when git is enabled and WebDAV is off, by the git add
and the commit of the file with the message "Edit for <store-relative path with
the .gpg suffix removed> using QtPass.". -/
theorem reencryptPath_reencrypts_mismatched_file (env : Env) (dir : String)
    (before : List GpgFile) (f : GpgFile) (after : List GpgFile)
    (hscan : env.gpgFiles dir = before ++ f :: after)
    (hbefore : ∀ g ∈ before,
      decryptFails env g.fileName ∨ env.getRecipientList g.fileName ≠ [])
    (hpath : f.path ≠ currentDirPath)
    (hdiff : actualKeysOf (listOutput env f.fileName) ≠ sort (env.getRecipientList f.fileName))
    (hdec : decryptOutput env f.fileName ≠ "" ∧
      decryptOutput env f.fileName ≠ "Could not decrypt")
    (hrec : env.getRecipientList f.fileName ≠ []) :
    ∃ pre post, reencryptPath env dir =
      pre ++
        [.executeBlocking env.gpgExecutable (listArgs f.fileName) "",
          .executeBlocking env.gpgExecutable (decryptArgs f.fileName) "",
          .executeBlocking env.gpgExecutable
            (["--yes", "--batch", "-eq", "--output", f.fileName] ++
              recipientArgs (env.getRecipientList f.fileName) ++ ["-"])
            (withNewline (decryptOutput env f.fileName))] ++
        (if env.useGit = true ∧ env.useWebDav = false then
          [.executeBlocking env.gitExecutable ["add", f.fileName] "",
            .executeBlocking env.gitExecutable
              ["commit", f.fileName, "-m",
                "Edit for " ++ removeGpgSuffix (env.relativeFilePath env.passStore f.fileName) ++
                  " using QtPass."] ""]
        else []) ++
        post := by
  have hnf : ¬ decryptFails env f.fileName := by
    unfold decryptFails
    push_neg
    exact hdec
  obtain ⟨rounds, g, h1, _⟩ := reencryptLoop_append env before (f :: after) [] hbefore
  rw [reencryptLoop_cons_reencrypt env f after g hpath hdiff hnf hrec] at h1
  have hcommit : commitReencrypted env f.fileName =
      (if env.useGit = true ∧ env.useWebDav = false then
        [Effect.executeBlocking env.gitExecutable ["add", f.fileName] "",
          Effect.executeBlocking env.gitExecutable
            ["commit", f.fileName, "-m",
              "Edit for " ++ removeGpgSuffix (env.relativeFilePath env.passStore f.fileName) ++
                " using QtPass."] ""]
      else []) := by
    unfold commitReencrypted
    cases env.useGit <;> cases env.useWebDav <;> simp
  refine ⟨[.statusMsg (arg "Re-encrypting from folder %1" dir) 3000, .startReencryptPath] ++
      (if env.autoPull then
        [.statusMsg "Updating password-store" 2000,
          .executeBlocking env.gitExecutable ["pull"] ""]
      else []) ++ rounds,
    (reencryptLoop env after (sort (env.getRecipientList f.fileName))).1 ++
      (if (reencryptLoop env after (sort (env.getRecipientList f.fileName))).2 then []
      else
        (if env.autoPush then .statusMsg "Updating password-store" 2000 :: GitPush env else []) ++
          [.endReencryptPath]), ?_⟩
  unfold reencryptPath
  rw [hscan, h1, ← hcommit]
  simp [listCall, decryptCall, encryptArgs]

theorem reencryptPath_reencrypts_mismatched_file_witness :
    ∃ pre post,
      reencryptPath (sampleEnv ["KEYA"]
          [⟨"/store/broken.gpg", "/store"⟩, ⟨"/store/secret.gpg", "/store"⟩]) "/store" =
        pre ++
          [.executeBlocking "gpg" (listArgs "/store/secret.gpg") "",
            .executeBlocking "gpg" (decryptArgs "/store/secret.gpg") "",
            .executeBlocking "gpg"
              ["--yes", "--batch", "-eq", "--output", "/store/secret.gpg", "-r", "KEYA", "-"]
              "pw\n"] ++
          [.executeBlocking "git" ["add", "/store/secret.gpg"] "",
            .executeBlocking "git"
              ["commit", "/store/secret.gpg", "-m", "Edit for /store/secret using QtPass."]
              ""] ++
          post :=
  reencryptPath_reencrypts_mismatched_file
    (sampleEnv ["KEYA"] [⟨"/store/broken.gpg", "/store"⟩, ⟨"/store/secret.gpg", "/store"⟩])
    "/store" [⟨"/store/broken.gpg", "/store"⟩] ⟨"/store/secret.gpg", "/store"⟩ []
    (by decide) (by decide) (by decide) (by decide) (by decide) (by decide)

/-- C9, as stated, fails: when the first file of the scan is mismatched,
decrypts, and resolves to an empty recipient list, `reencryptPath` raises
"Can not edit" and returns from inside the loop; the second file of the scan
is never listed. -/
theorem reencryptPath_stops_at_empty_recipients :
    reencryptPath (sampleEnv [] [⟨"/store/a.gpg", "/store"⟩, ⟨"/store/b.gpg", "/store"⟩])
        "/store" =
      [.statusMsg "Re-encrypting from folder /store" 3000, .startReencryptPath,
        .executeBlocking "gpg" (listArgs "/store/a.gpg") "",
        .executeBlocking "gpg" (decryptArgs "/store/a.gpg") "",
        .critical "Can not edit"
          "Could not read encryption key to use, .gpg-id file missing or invalid."] ∧
      Effect.executeBlocking "gpg" (listArgs "/store/b.gpg") "" ∉
        reencryptPath (sampleEnv [] [⟨"/store/a.gpg", "/store"⟩, ⟨"/store/b.gpg", "/store"⟩])
          "/store" := by
  decide

/-- C9 (amended): a file whose decryption returns empty text or "Could not
decrypt" never ends the scan, an empty recipient list at re-encrypt time does.
Let the files `before` each fail to decrypt or resolve to a non-empty recipient
list.  Then every one of them is processed (its list-only call is issued, in
scan order); when they are the whole scan nothing else is listed and
`reencryptPath` runs to its end (it emits endReencryptPath); and when the next
file (lying in a directory other than `.`) has actual recipients, decrypts, and
resolves to an empty recipient list, `reencryptPath` processes that file, raises
"Can not edit" as its last effect and processes no later file. -/
theorem reencryptPath_scan_continues_unless_no_recipients (env : Env) (dir : String)
    (before after : List GpgFile)
    (hscan : env.gpgFiles dir = before ++ after)
    (hbefore : ∀ g ∈ before,
      decryptFails env g.fileName ∨ env.getRecipientList g.fileName ≠ []) :
    (after = [] →
        (reencryptPath env dir).filter Effect.isListCall = before.map (listCall env) ∧
          (reencryptPath env dir).getLast? = some .endReencryptPath) ∧
      (∀ f rest, after = f :: rest → f.path ≠ currentDirPath →
        env.getRecipientList f.fileName = [] →
        actualKeysOf (listOutput env f.fileName) ≠ [] →
        ¬ decryptFails env f.fileName →
        (reencryptPath env dir).filter Effect.isListCall = (before ++ [f]).map (listCall env) ∧
          (reencryptPath env dir).getLast? =
            some (.critical "Can not edit"
              "Could not read encryption key to use, .gpg-id file missing or invalid.")) := by
  obtain ⟨rounds, g, h1, h2⟩ := reencryptLoop_append env before after [] hbefore
  have hpush : (GitPush env).filter Effect.isListCall = [] := by
    unfold GitPush executeGit
    split <;> simp [Effect.isListCall]
  constructor
  · intro hnil
    subst hnil
    simp only [reencryptLoop, List.append_nil] at h1
    unfold reencryptPath
    rw [hscan, List.append_nil]
    rw [h1]
    simp only [List.append_nil, Bool.false_eq_true, if_false]
    constructor
    · cases env.autoPull <;> cases env.autoPush <;>
        simp [List.filter_append, h2, hpush, Effect.isListCall]
    · rw [List.getLast?_eq_some_iff]
      exact ⟨_, (List.append_assoc _ _ _).symm⟩
  · intro f rest hafter hpath hrec hkeys hdec
    subst hafter
    rw [reencryptLoop_cons_return env f rest g hpath hrec hkeys hdec] at h1
    unfold reencryptPath
    rw [hscan, h1]
    simp only [if_true]
    constructor
    · cases env.autoPull <;>
        simp [List.filter_append, h2, Effect.isListCall, listCall, decryptCall, listArgs,
          decryptArgs]
    · rw [List.getLast?_eq_some_iff]
      refine ⟨[.statusMsg (arg "Re-encrypting from folder %1" dir) 3000, .startReencryptPath] ++
        (if env.autoPull then
          [.statusMsg "Updating password-store" 2000,
            .executeBlocking env.gitExecutable ["pull"] ""]
        else []) ++ rounds ++ [listCall env f, decryptCall env f], ?_⟩
      simp

theorem reencryptPath_scan_continues_unless_no_recipients_witness :
    (([⟨"/store/a.gpg", "/store"⟩, ⟨"/store/b.gpg", "/store"⟩] : List GpgFile) = [] →
        (reencryptPath
            (sampleEnv [] [⟨"/store/broken.gpg", "/store"⟩, ⟨"/store/a.gpg", "/store"⟩,
              ⟨"/store/b.gpg", "/store"⟩]) "/store").filter Effect.isListCall =
          [⟨"/store/broken.gpg", "/store"⟩].map
            (listCall (sampleEnv [] [⟨"/store/broken.gpg", "/store"⟩,
              ⟨"/store/a.gpg", "/store"⟩, ⟨"/store/b.gpg", "/store"⟩])) ∧
          (reencryptPath
            (sampleEnv [] [⟨"/store/broken.gpg", "/store"⟩, ⟨"/store/a.gpg", "/store"⟩,
              ⟨"/store/b.gpg", "/store"⟩]) "/store").getLast? = some .endReencryptPath) ∧
      (reencryptPath
          (sampleEnv [] [⟨"/store/broken.gpg", "/store"⟩, ⟨"/store/a.gpg", "/store"⟩,
            ⟨"/store/b.gpg", "/store"⟩]) "/store").filter Effect.isListCall =
        [.executeBlocking "gpg" (listArgs "/store/broken.gpg") "",
          .executeBlocking "gpg" (listArgs "/store/a.gpg") ""] :=
  have h := reencryptPath_scan_continues_unless_no_recipients
    (sampleEnv [] [⟨"/store/broken.gpg", "/store"⟩, ⟨"/store/a.gpg", "/store"⟩,
      ⟨"/store/b.gpg", "/store"⟩])
    "/store" [⟨"/store/broken.gpg", "/store"⟩]
    [⟨"/store/a.gpg", "/store"⟩, ⟨"/store/b.gpg", "/store"⟩] (by decide) (by decide)
  ⟨h.1, (h.2 ⟨"/store/a.gpg", "/store"⟩ [⟨"/store/b.gpg", "/store"⟩] rfl (by decide)
    (by decide) (by decide) (by decide)).1⟩

/-! ## The match/mismatch decision of `reencryptPath` -/

theorem actualKeysOf_eq_sort_collected (keys : String) :
    actualKeysOf keys = sort (collectedKeys keys) := rfl

/-- Every round of the loop opens with the list-only call of its file. -/
theorem reencryptLoop_head (env : Env) (f : GpgFile) (rest : List GpgFile)
    (gpgId : List String) :
    ∃ tail, (reencryptLoop env (f :: rest) gpgId).1 = listCall env f :: tail := by
  rw [reencryptLoop]
  simp only []
  split_ifs <;> exact ⟨_, rfl⟩

theorem take_two_of_match_round (env : Env) (f : GpgFile) (rest : List GpgFile)
    (g : List String) :
    (listCall env f :: (reencryptLoop env rest g).1).take 2 ≠
      [listCall env f, decryptCall env f] := by
  cases rest with
  | nil => simp [reencryptLoop]
  | cons f2 rest2 =>
    obtain ⟨tail, ht⟩ := reencryptLoop_head env f2 rest2 g
    rw [ht]
    simp [listCall, decryptCall, listArgs, decryptArgs]

/-- Outside `.` the branch taken by a round is decided by comparing the sorted
actual keys of the file with the sorted recipient list resolved for it. -/
theorem takesMismatchBranch_eq (env : Env) (f : GpgFile) (rest : List GpgFile)
    (gpgId : List String) (hpath : f.path ≠ currentDirPath) :
    takesMismatchBranch env (f :: rest) gpgId =
      decide (actualKeysOf (listOutput env f.fileName) ≠
        sort (env.getRecipientList f.fileName)) := by
  unfold takesMismatchBranch
  simp only []
  by_cases hdiff : actualKeysOf (listOutput env f.fileName) =
      sort (env.getRecipientList f.fileName)
  · have hloop : (reencryptLoop env (f :: rest) gpgId).1 =
        listCall env f :: (reencryptLoop env rest (sort (env.getRecipientList f.fileName))).1 := by
      rw [reencryptLoop]
      simp [hpath, hdiff, listCall]
    rw [hloop]
    simp only [hdiff, ne_eq, not_true_eq_false, decide_False, decide_eq_false_iff_not]
    exact take_two_of_match_round env f rest _
  · have hloop : ∃ tail, (reencryptLoop env (f :: rest) gpgId).1 =
        listCall env f :: decryptCall env f :: tail := by
      rw [reencryptLoop]
      simp only [hpath, ne_eq, not_false_eq_true, if_true, hdiff]
      split_ifs <;> exact ⟨_, rfl⟩
    obtain ⟨tail, ht⟩ := hloop
    rw [ht]
    simp [hdiff]

/-- Outside `.` the decision of `reencryptPath` for a file is order-independent:
between two runs in which the keys collected from the list output are
permutations of each other and so are the resolved recipient lists, the same
branch is taken, and the match branch is taken exactly when the collected keys
and the resolved recipients are equal as multisets. -/
theorem reencryptLoop_decision_outside_current_dir (env1 env2 : Env) (f : GpgFile)
    (rest1 rest2 : List GpgFile) (gpgId1 gpgId2 : List String)
    (hpath : f.path ≠ currentDirPath)
    (hactual : (collectedKeys (listOutput env1 f.fileName)).Perm
      (collectedKeys (listOutput env2 f.fileName)))
    (hgov : (env1.getRecipientList f.fileName).Perm (env2.getRecipientList f.fileName)) :
    takesMismatchBranch env1 (f :: rest1) gpgId1 = takesMismatchBranch env2 (f :: rest2) gpgId2 ∧
      (takesMismatchBranch env1 (f :: rest1) gpgId1 = false ↔
        (collectedKeys (listOutput env1 f.fileName) : Multiset String) =
          (env1.getRecipientList f.fileName : Multiset String)) := by
  rw [takesMismatchBranch_eq env1 f rest1 gpgId1 hpath,
    takesMismatchBranch_eq env2 f rest2 gpgId2 hpath]
  simp only [actualKeysOf_eq_sort_collected]
  have h1 : sort (collectedKeys (listOutput env1 f.fileName)) =
      sort (collectedKeys (listOutput env2 f.fileName)) := (sort_eq_iff_perm _ _).2 hactual
  have h2 : sort (env1.getRecipientList f.fileName) = sort (env2.getRecipientList f.fileName) :=
    (sort_eq_iff_perm _ _).2 hgov
  refine ⟨by simp only [h1, h2], ?_⟩
  rw [Multiset.coe_eq_coe, ← sort_eq_iff_perm]
  simp

theorem reencryptLoop_decision_outside_current_dir_witness :
    takesMismatchBranch (sampleEnv ["KEYB", "0123456789ABCDEF"] [])
        (⟨"/store/a.gpg", "/store"⟩ :: []) [] =
      takesMismatchBranch (sampleEnv ["0123456789ABCDEF", "KEYB"] [])
        (⟨"/store/a.gpg", "/store"⟩ :: [⟨"/store/b.gpg", "/store"⟩]) ["KEYC"] ∧
      (takesMismatchBranch (sampleEnv ["KEYB", "0123456789ABCDEF"] [])
          (⟨"/store/a.gpg", "/store"⟩ :: []) [] = false ↔
        (collectedKeys (listOutput (sampleEnv ["KEYB", "0123456789ABCDEF"] []) "/store/a.gpg") :
            Multiset String) =
          ((sampleEnv ["KEYB", "0123456789ABCDEF"] []).getRecipientList "/store/a.gpg" :
            Multiset String)) :=
  reencryptLoop_decision_outside_current_dir (sampleEnv ["KEYB", "0123456789ABCDEF"] [])
    (sampleEnv ["0123456789ABCDEF", "KEYB"] []) ⟨"/store/a.gpg", "/store"⟩ []
    [⟨"/store/b.gpg", "/store"⟩] [] ["KEYC"] (by decide) (by decide) (by decide)

/-- C7 holds of the comparison the code means to make but not of the one it
makes for a file lying directly in `.` : `currentDir` is a default `QDir` that
is never updated, so for `./b.gpg` the list `gpgId` is not recomputed and is
still empty.  The file is encrypted for 0123456789ABCDEF and governed by
0123456789ABCDEF (the two lists are equal, sorted or as multisets), yet the
comparison reports a mismatch and the file is decrypted, encrypted again and
committed. -/
theorem reencryptPath_current_dir_compares_stale_list :
    collectedKeys (listOutput (sampleEnv ["0123456789ABCDEF"] [⟨"./b.gpg", "."⟩]) "./b.gpg") =
        (sampleEnv ["0123456789ABCDEF"] [⟨"./b.gpg", "."⟩]).getRecipientList "./b.gpg" ∧
      takesMismatchBranch (sampleEnv ["0123456789ABCDEF"] [⟨"./b.gpg", "."⟩])
        [⟨"./b.gpg", "."⟩] [] = true ∧
      reencryptPath (sampleEnv ["0123456789ABCDEF"] [⟨"./b.gpg", "."⟩]) "." =
        [.statusMsg "Re-encrypting from folder ." 3000, .startReencryptPath,
          .executeBlocking "gpg" (listArgs "./b.gpg") "",
          .executeBlocking "gpg" (decryptArgs "./b.gpg") "",
          .executeBlocking "gpg"
            ["--yes", "--batch", "-eq", "--output", "./b.gpg", "-r", "0123456789ABCDEF", "-"]
            "pw\n",
          .executeBlocking "git" ["add", "./b.gpg"] "",
          .executeBlocking "git" ["commit", "./b.gpg", "-m", "Edit for ./b using QtPass."] "",
          .endReencryptPath] := by
  decide

end Keybase
